import Mathlib

/-!
Verification of the `subtract` subtitle tool (src/subtract/main.py).

Text is modelled as `List Char` over the ASCII fragment: Python's `\w`
is `[A-Za-z0-9_]` there, and `re.IGNORECASE` compares lower-cased
characters.  Machine floats returned by `random.random()` are modelled
as rationals in `[0,1)` supplied by an explicit stream, and the
process-wide random source is an explicit draw index threaded through
the computation.
-/

/-- Python `\w` on the ASCII fragment: letters, digits and underscore. -/
def isWordChar (c : Char) : Bool := c.isAlphanum || c == '_'

/-- Word-character test for an optional character; positions outside the
text count as non-word, as in `re`'s `\b` semantics. -/
def wordOpt : Option Char → Bool
  | some c => isWordChar c
  | none => false

/-- Word boundary between two adjacent (optional) characters: their
word-ness differs.  This is `\b` between them. -/
def isBoundary (a b : Option Char) : Bool := wordOpt a != wordOpt b

/-- Case-insensitive equality of characters, the `re.IGNORECASE` model. -/
def ciEq (a b : Char) : Bool := a.toLower == b.toLower

/-- Case-insensitive test that the word `w` is a prefix of the text `s`
(the literal match of one escaped alternative of the compiled pattern). -/
def ciMatch : List Char → List Char → Bool
  | [], _ => true
  | _ :: _, [] => false
  | a :: as, b :: bs => ciEq a b && ciMatch as bs

/-- The character just before position `n` of the remaining text, given
the character `prev` preceding the remaining text. -/
def prevBefore (prev : Option Char) (rest : List Char) (n : Nat) : Option Char :=
  if n = 0 then prev else rest.get? (n - 1)

/-- Word boundary (`\b`) at offset `n` into the remaining text. -/
def boundaryAfter (prev : Option Char) (rest : List Char) (n : Nat) : Bool :=
  isBoundary (prevBefore prev rest n) (rest.get? n)

/-- One alternative `w` of the pattern `\b(w1|w2|...)\b` matches at the
current position: leading `\b`, the literal word case-insensitively, and
the trailing `\b` after it. -/
def wordMatchesAt (prev : Option Char) (rest : List Char) (w : List Char) : Bool :=
  boundaryAfter prev rest 0 && ciMatch w rest && boundaryAfter prev rest w.length

/-- The scan loop of `pat.sub(repl, text)` for the exact replacer: at each
position try the alternatives in wordlist order (Python alternation is
first-match, not longest-match); on a non-empty match emit underscores of
the matched length and continue after the match; otherwise copy one
character.  A zero-width match — an empty wordlist entry succeeding at a
word boundary — emits its replacement, which is the empty string
(`'_' * 0`), and then, per the `must_advance` behaviour of `re.sub`
since Python 3.7, the engine retries the remaining alternatives at the
same position with zero-width matches barred there, so empty entries
never pre-empt a replacement and are no-ops in the output.  The final
`Bool` is that flag: a zero-width match just happened at the current
position.  Zero-width matches at later positions (or at the end of the
text) also produce only the empty replacement, so their exact scheduling
does not show in the output.  `fuel` bounds the recursion and is chosen
large enough to never run out. -/
def scanExact (words : List (List Char)) : Nat → Option Char → List Char → Bool → List Char
  | 0, _, rest, _ => rest
  | _ + 1, _, [], _ => []
  | fuel + 1, prev, c :: cs, ma =>
    match words.find? (fun w => wordMatchesAt prev (c :: cs) w && (!ma || !(w.length == 0))) with
    | some w =>
      if w.length = 0 then scanExact words fuel prev (c :: cs) true
      else
        List.replicate w.length '_' ++
          scanExact words fuel ((c :: cs).get? (w.length - 1)) ((c :: cs).drop w.length) false
    | none => c :: scanExact words fuel (some c) cs false

/-- `should_replace`: transform only text that does not start with `{`. -/
def shouldReplace (text : List Char) : Bool :=
  !(text.head? == some '{')

/-- The replacer built by `make_replacer(words)`: compile
`\b(escaped words joined by |)\b` with `IGNORECASE` and substitute each
match by a run of underscores of the matched length; text starting with
`{` is returned unchanged. -/
def makeReplacer (words : List (List Char)) (text : List Char) : List Char :=
  if shouldReplace text then scanExact words (2 * text.length + 1) none text false else text

/-- A token character of the random replacer: `[\w']` (word characters
and the apostrophe). -/
def isTokChar (c : Char) : Bool := isWordChar c || c.toNat == 39

/-- Length of the maximal run of token characters at the front of `s`
(the greedy extent of the group `[\w']+`). -/
def tokRun (s : List Char) : Nat := (s.takeWhile isTokChar).length

/-- Backtracking of the greedy group `[\w']+` against the trailing `\b`:
try the candidate length `k`, then `k - 1`, ..., down to `1`, returning
the first (largest) length whose following position is a word boundary. -/
def validTokLen (s : List Char) : Nat → Option Nat
  | 0 => none
  | k + 1 =>
    if isBoundary (s.get? k) (s.get? (k + 1)) then some (k + 1) else validTokLen s k

/-- Attempt of the pattern `\b(\\\w)?([\w']+)\b` at the current position.
Returns `some (g1, g2)` with `g1` the length of the optional escape-marker
group (`0` or `2`) and `g2` the length of the token group.  The regex
engine first requires the leading `\b`, then tries the optional group
(a backslash followed by a word character), then matches `[\w']+`
greedily, backtracking against the trailing `\b`; if the optional group
was taken but no token length works, it retries without it, which fails
since a backslash is not a token character. -/
def tryMatchTok (prev : Option Char) (rest : List Char) : Option (Nat × Nat) :=
  if isBoundary prev rest.head? then
    match rest with
    | c1 :: d :: rest2 =>
      if c1 == '\\' && isWordChar d then
        match validTokLen rest2 (tokRun rest2) with
        | some k => some (2, k)
        | none => none
      else (validTokLen rest (tokRun rest)).map (fun k => (0, k))
    | _ => (validTokLen rest (tokRun rest)).map (fun k => (0, k))
  else none

/-- The scan loop of `pat.sub(repl, text)` for the random replacer.  Each
match consumes one draw from the `stream` at the current index `n`; if
the draw exceeds `keep` the token group is replaced by underscores of its
length, otherwise kept; the escape-marker group is re-emitted verbatim in
either case.  Returns the output together with the next draw index. -/
def scanRandom (keep : ℚ) (stream : ℕ → ℚ) :
    Nat → ℕ → Option Char → List Char → List Char × ℕ
  | 0, n, _, rest => (rest, n)
  | _ + 1, n, _, [] => ([], n)
  | fuel + 1, n, prev, c :: cs =>
    match tryMatchTok prev (c :: cs) with
    | some (g1, k) =>
      ((c :: cs).take g1 ++
        (if keep < stream n then List.replicate k '_' else ((c :: cs).drop g1).take k) ++
        (scanRandom keep stream fuel (n + 1)
          ((c :: cs).get? (g1 + k - 1)) ((c :: cs).drop (g1 + k))).1,
       (scanRandom keep stream fuel (n + 1)
          ((c :: cs).get? (g1 + k - 1)) ((c :: cs).drop (g1 + k))).2)
    | none =>
      (c :: (scanRandom keep stream fuel n (some c) cs).1,
       (scanRandom keep stream fuel n (some c) cs).2)

/-- The replacer built by `make_random_replacer(keep_ratio)`, with the
global random source made explicit: `stream` is the sequence of
`random.random()` results and `n` the index of the next draw.  Text
starting with `{` is returned unchanged and consumes no draw. -/
def makeRandomReplacer (keep : ℚ) (stream : ℕ → ℚ) (n : ℕ) (text : List Char) :
    List Char × ℕ :=
  if shouldReplace text then scanRandom keep stream (text.length + 1) n none text
  else (text, n)

/-- `redact_random` on one line of text, drawing from index `0`. -/
def redactRandom (keep : ℚ) (stream : ℕ → ℚ) (text : List Char) : List Char :=
  (makeRandomReplacer keep stream 0 text).1

/-- The character just before absolute position `k` of `text` (`none` at
the start of the text). -/
def prevAt (text : List Char) (k : Nat) : Option Char :=
  if k = 0 then none else text.get? (k - 1)

/-- Word boundary (`\b`) of `text` at absolute position `i`. -/
def boundaryAt (text : List Char) (i : Nat) : Bool :=
  isBoundary (prevAt text i) (text.get? i)

/-- The word `w` has a whole-word, case-insensitive occurrence in `text`
starting at absolute position `i`: boundaries on both sides and a literal
case-insensitive match in between. -/
def occursAt (text w : List Char) (i : Nat) : Bool :=
  boundaryAt text i && ciMatch w (text.drop i) && boundaryAt text (i + w.length)

/-- Position `p` of `text` lies inside some whole-word occurrence of some
word of the wordlist. -/
def coveredB (words : List (List Char)) (text : List Char) (p : Nat) : Bool :=
  words.any fun w =>
    (List.range (p + 1)).any fun i => occursAt text w i && decide (p < i + w.length)

/-- No two whole-word occurrences of nonempty wordlist words overlap
except when they coincide exactly.  Empty entries are exempt: their
zero-width occurrences never cover a position and never pre-empt a
replacement.  (Lists of words made of word characters only always
satisfy this; overlap needs a word that extends another across an
internal word boundary, such as a word containing punctuation.) -/
def SeparatedOccs (words : List (List Char)) (text : List Char) : Prop :=
  ∀ w1 ∈ words, w1 ≠ [] → ∀ w2 ∈ words, w2 ≠ [] → ∀ i1 < text.length, ∀ i2 < text.length,
    occursAt text w1 i1 = true → occursAt text w2 i2 = true →
    (i1 = i2 ∧ w1.length = w2.length) ∨ i1 + w1.length ≤ i2 ∨ i2 + w2.length ≤ i1

/-- Executable check for `SeparatedOccs`, used for its decidability. -/
def separatedOccsB (words : List (List Char)) (text : List Char) : Bool :=
  words.all fun w1 => words.all fun w2 =>
    (List.range text.length).all fun i1 => (List.range text.length).all fun i2 =>
      decide (w1 ≠ [] → w2 ≠ [] →
        occursAt text w1 i1 = true → occursAt text w2 i2 = true →
        (i1 = i2 ∧ w1.length = w2.length) ∨ i1 + w1.length ≤ i2 ∨ i2 + w2.length ≤ i1)

instance (words : List (List Char)) (text : List Char) :
    Decidable (SeparatedOccs words text) := by
  refine decidable_of_iff (separatedOccsB words text = true) ?_
  rw [separatedOccsB, List.all_eq_true]
  constructor
  · intro h w1 hw1 hne1 w2 hw2 hne2 i1 hi1 i2 hi2 ho1 ho2
    have h1 := h w1 hw1
    rw [List.all_eq_true] at h1
    have h2 := h1 w2 hw2
    rw [List.all_eq_true] at h2
    have h3 := h2 i1 (List.mem_range.mpr hi1)
    rw [List.all_eq_true] at h3
    have h4 := h3 i2 (List.mem_range.mpr hi2)
    exact of_decide_eq_true h4 hne1 hne2 ho1 ho2
  · intro h w1 hw1
    rw [List.all_eq_true]
    intro w2 hw2
    rw [List.all_eq_true]
    intro i1 hi1
    rw [List.all_eq_true]
    intro i2 hi2
    exact decide_eq_true (fun hne1 hne2 ho1 ho2 =>
      h w1 hw1 hne1 w2 hw2 hne2 i1 (List.mem_range.mp hi1) i2 (List.mem_range.mp hi2)
        ho1 ho2)

/-- Remove every wordlist entry equal to an earlier entry, keeping first
occurrences in order; `seen` accumulates the entries already kept. -/
def dedupAux : List (List Char) → List (List Char) → List (List Char)
  | [], _ => []
  | w :: ws, seen =>
    if w ∈ seen then dedupAux ws seen else w :: dedupAux ws (w :: seen)

/-- The wordlist with later duplicates removed. -/
def dedupWords (words : List (List Char)) : List (List Char) := dedupAux words []

/-- Rendering of the specification sentence for `keepRatio = 0`: scan
with the same tokenizer, but replace every token unconditionally by
underscores of its length, keeping any leading escape marker verbatim. -/
def scanAllDrop : Nat → Option Char → List Char → List Char
  | 0, _, rest => rest
  | _ + 1, _, [] => []
  | fuel + 1, prev, c :: cs =>
    match tryMatchTok prev (c :: cs) with
    | some (g1, k) =>
      (c :: cs).take g1 ++ List.replicate k '_' ++
        scanAllDrop fuel ((c :: cs).get? (g1 + k - 1)) ((c :: cs).drop (g1 + k))
    | none => c :: scanAllDrop fuel (some c) cs

/-- The specification's description of `redact_random` at
`keepRatio = 0`: every alphanumeric token replaced by underscores of
equal length, any leading escape marker preserved, `{`-initial text
unchanged. -/
def specAllDrop (text : List Char) : List Char :=
  if shouldReplace text then scanAllDrop (text.length + 1) none text else text

/-- One timed subtitle event (the library's `SSAEvent`): start and end
times in milliseconds and the raw text payload.  The field `stop`
models the source's `end` field (`end` is a Lean keyword). -/
structure SSAEvent where
  start : Nat
  stop : Nat
  text : List Char
deriving DecidableEq

/-- A subtitle track (the library's `SSAFile`), reduced to its event
list; the remaining fields (styles, script info) are not touched by any
code under verification. -/
structure SSAFile where
  events : List SSAEvent
deriving DecidableEq

/-- Escaping performed by the `plaintext` setter of the subtitle-format
library: literal newlines become the two-character escape `\N`. -/
def escapeNewlines : List Char → List Char
  | [] => []
  | c :: cs =>
    if c = '\n' then '\\' :: 'N' :: escapeNewlines cs else c :: escapeNewlines cs

/-- The `plaintext` setter of the subtitle-format library: assigning `s`
to `event.plaintext` stores `s`, newline-escaped, as the event's raw
`text`; it does not restore or protect control sequences present in the
previous raw text. -/
def setPlaintext (e : SSAEvent) (s : List Char) : SSAEvent :=
  { e with text := escapeNewlines s }

/-- `clone_subs`: a serialization round-trip through the exchange format
(`SSAFile.from_string(subs.to_string("ass"), "ass")`).  It produces a
fresh object; the round-trip itself is modelled as value-preserving. -/
def cloneSubs (subs : SSAFile) : SSAFile := subs

/-- `drop_words`: clone the track, then assign `replacer(event.text)` to
each event's `plaintext`. -/
def dropWords (subs : SSAFile) (words : List (List Char)) : SSAFile :=
  { cloneSubs subs with
    events := (cloneSubs subs).events.map
      (fun e => setPlaintext e (makeReplacer words e.text)) }

/-- The event loop of `drop_random_words`: one process-wide random
source, so the draw index advances across events. -/
def dropRandomEvents (keep : ℚ) (stream : ℕ → ℚ) : ℕ → List SSAEvent → List SSAEvent
  | _, [] => []
  | n, e :: es =>
    setPlaintext e (makeRandomReplacer keep stream n e.text).1 ::
      dropRandomEvents keep stream (makeRandomReplacer keep stream n e.text).2 es

/-- `drop_random_words`: clone the track, then assign
`replacer(event.text)` to each event's `plaintext`. -/
def dropRandomWords (subs : SSAFile) (keep : ℚ) (stream : ℕ → ℚ) : SSAFile :=
  { cloneSubs subs with
    events := dropRandomEvents keep stream 0 (cloneSubs subs).events }

/-- A video path, reduced to what `Path.with_suffix` keeps: the stem
(path without its final extension).  Sidecar names are the stem plus a
suffix. -/
structure VideoPath where
  stem : String
deriving DecidableEq

/-- The sidecar files next to the video: an association of sidecar file
names to the parsed tracks they contain.  Writing prepends, and lookup
returns the most recent write; serialization through the exchange format
is modelled as faithful. -/
abbrev SidecarFS := List (String × SSAFile)

/-- Sidecar suffix chosen by `get_subs`: Python's `if language:` is
false both for `None` and for the empty string. -/
def langSuffix : Option String → String
  | some l => if l = "" then ".ssa" else "." ++ l ++ ".ssa"
  | none => ".ssa"

/-- `get_subs`: derive the sidecar path from the video and language; if
the sidecar exists, load and return it; otherwise call the external
extraction facility (the oracle `extract`), persist the result at the
sidecar path and return it.  The last component logs the extraction
calls made, with the language requested from the facility. -/
def getSubs (extract : VideoPath → Option String → SSAFile) (fs : SidecarFS)
    (video : VideoPath) (language : Option String) :
    SSAFile × SidecarFS × List (Option String) :=
  match fs.lookup (video.stem ++ langSuffix language) with
  | some subs => (subs, fs, [])
  | none =>
    (extract video language,
     (video.stem ++ langSuffix language, extract video language) :: fs,
     [language])

/-- Store model for the aliasing claim: tracks live in a store addressed
by position.  `drop_words(subs, words)` receives the address `i`;
`clone_subs` allocates a fresh track at the end of the store and every
`plaintext` write lands on that fresh copy, whose address is returned. -/
def dropWordsHeap (heap : List SSAFile) (i : ℕ) (words : List (List Char)) :
    List SSAFile × ℕ :=
  (heap ++ [dropWords ((heap.get? i).getD ⟨[]⟩) words], heap.length)

/-- Store model of `drop_random_words`, as for `dropWordsHeap`. -/
def dropRandomWordsHeap (heap : List SSAFile) (i : ℕ) (keep : ℚ) (stream : ℕ → ℚ) :
    List SSAFile × ℕ :=
  (heap ++ [dropRandomWords ((heap.get? i).getD ⟨[]⟩) keep stream], heap.length)

/-- The `drop` command with a wordlist: fetch (and possibly persist) the
subtitles, then redact for playback; the filesystem after the command is
whatever `get_subs` left. -/
def dropCmd (extract : VideoPath → Option String → SSAFile) (fs : SidecarFS)
    (video : VideoPath) (words : List (List Char)) : SSAFile × SidecarFS :=
  (dropWords (getSubs extract fs video none).1 words,
   (getSubs extract fs video none).2.1)

/-- Event ordering used by the library's `SSAFile.sort()`: by start
time, then end time.  (Tie-breaking on further fields of the library's
event ordering is not modelled; no claim depends on it.) -/
def evLE (a b : SSAEvent) : Bool :=
  decide (a.start < b.start ∨ (a.start = b.start ∧ a.stop ≤ b.stop))

/-- Insertion into a sorted event list. -/
def insertEv (e : SSAEvent) : List SSAEvent → List SSAEvent
  | [] => [e]
  | f :: fs => if evLE e f then e :: f :: fs else f :: insertEv e fs

/-- The sort applied by `merged_subs.sort()`. -/
def sortEvents : List SSAEvent → List SSAEvent
  | [] => []
  | e :: es => insertEv e (sortEvents es)

/-- The per-language fetch loop of `merge_subs`:
`[get_subs(video, language) for language in languages]`, with the
filesystem threaded through the calls in order.  Returns the fetched
tracks, the final filesystem and the concatenated extraction log. -/
def getSubsMany (extract : VideoPath → Option String → SSAFile) (video : VideoPath) :
    SidecarFS → List String → List SSAFile × SidecarFS × List (Option String)
  | fs, [] => ([], fs, [])
  | fs, l :: ls =>
    ((getSubs extract fs video (some l)).1 ::
        (getSubsMany extract video (getSubs extract fs video (some l)).2.1 ls).1,
     (getSubsMany extract video (getSubs extract fs video (some l)).2.1 ls).2.1,
     (getSubs extract fs video (some l)).2.2 ++
        (getSubsMany extract video (getSubs extract fs video (some l)).2.1 ls).2.2)

/-- The merge sidecar suffix `.<l1>_<l2>_..._<lN>.ssa` (languages joined
by underscore, in the order given). -/
def mergeSuffix (languages : List String) : String :=
  "." ++ String.intercalate "_" languages ++ ".ssa"

/-- `merge_subs`: load the merge sidecar when it exists; otherwise fetch
every language's track through `get_subs`, extend the first track's
event list with the others', sort, persist at the merge path and return.
On a cache miss with an empty language list the source's unpacking
`merged_subs, *other_subs = many_subs` raises `ValueError`, modelled as
`none`.  (The merged track keeps the first track's non-event fields,
which this model does not carry.) -/
def mergeSubs (extract : VideoPath → Option String → SSAFile) (fs : SidecarFS)
    (video : VideoPath) (languages : List String) :
    Option (SSAFile × SidecarFS × List (Option String)) :=
  match fs.lookup (video.stem ++ mergeSuffix languages) with
  | some subs => some (subs, fs, [])
  | none =>
    match languages with
    | [] => none
    | l :: ls =>
      some
        (⟨sortEvents (((getSubsMany extract video fs (l :: ls)).1.map SSAFile.events).join)⟩,
         (video.stem ++ mergeSuffix (l :: ls),
           (⟨sortEvents (((getSubsMany extract video fs (l :: ls)).1.map
             SSAFile.events).join)⟩ : SSAFile)) ::
           (getSubsMany extract video fs (l :: ls)).2.1,
         (getSubsMany extract video fs (l :: ls)).2.2)

lemma ciMatch_length_le : ∀ w s : List Char, ciMatch w s = true → w.length ≤ s.length := by
  intro w
  induction w with
  | nil => intro s _; simp
  | cons a as ih =>
    intro s h
    cases s with
    | nil => simp [ciMatch] at h
    | cons b bs =>
      rw [ciMatch, Bool.and_eq_true] at h
      have := ih bs h.2
      simp only [List.length_cons]
      omega

lemma occursAt_lt_length {text w : List Char} {i : Nat} (hw : w ≠ [])
    (h : occursAt text w i = true) : i < text.length := by
  rw [occursAt, Bool.and_eq_true, Bool.and_eq_true] at h
  have hle := ciMatch_length_le w (text.drop i) h.1.2
  have h1 : 1 ≤ w.length := by
    cases w
    · exact absurd rfl hw
    · simp
  rw [List.length_drop] at hle
  omega

lemma occursAt_add_le {text w : List Char} {i : Nat} (hw : w ≠ [])
    (h : occursAt text w i = true) : i + w.length ≤ text.length := by
  have hi := occursAt_lt_length hw h
  rw [occursAt, Bool.and_eq_true, Bool.and_eq_true] at h
  have hle := ciMatch_length_le w (text.drop i) h.1.2
  rw [List.length_drop] at hle
  omega

lemma coveredB_iff (words : List (List Char)) (text : List Char) (p : Nat) :
    coveredB words text p = true ↔
      ∃ w, w ∈ words ∧ ∃ i, i ≤ p ∧ occursAt text w i = true ∧ p < i + w.length := by
  rw [coveredB, List.any_eq_true]
  constructor
  · rintro ⟨w, hw, h⟩
    rw [List.any_eq_true] at h
    obtain ⟨i, hi, h2⟩ := h
    rw [List.mem_range] at hi
    rw [Bool.and_eq_true, decide_eq_true_eq] at h2
    exact ⟨w, hw, i, by omega, h2.1, h2.2⟩
  · rintro ⟨w, hw, i, hi, hocc, hlt⟩
    refine ⟨w, hw, ?_⟩
    rw [List.any_eq_true]
    refine ⟨i, List.mem_range.mpr (by omega), ?_⟩
    rw [Bool.and_eq_true, decide_eq_true_eq]
    exact ⟨hocc, hlt⟩

lemma coveredB_lt_length {words : List (List Char)} {text : List Char} {p : Nat}
    (h : coveredB words text p = true) : p < text.length := by
  obtain ⟨w, hw, i, hi, hocc, hlt⟩ := (coveredB_iff words text p).mp h
  have hwne : w ≠ [] := by
    intro he
    subst he
    simp at hlt
    omega
  have := occursAt_add_le hwne hocc
  omega

lemma coveredB_of {words : List (List Char)} {text w : List Char} {i p : Nat}
    (hw : w ∈ words) (hocc : occursAt text w i = true) (h1 : i ≤ p)
    (h2 : p < i + w.length) : coveredB words text p = true :=
  (coveredB_iff words text p).mpr ⟨w, hw, i, h1, hocc, h2⟩

lemma prevBefore_drop (text : List Char) (k n : Nat) :
    prevBefore (prevAt text k) (text.drop k) n = prevAt text (k + n) := by
  cases n with
  | zero => simp [prevBefore]
  | succ m =>
    rw [prevBefore, if_neg (by omega : ¬ m + 1 = 0)]
    rw [prevAt, if_neg (by omega : ¬ k + (m + 1) = 0)]
    simp only [Nat.add_sub_cancel]
    rw [List.get?_drop]
    congr 1

lemma boundaryAfter_drop (text : List Char) (k n : Nat) :
    boundaryAfter (prevAt text k) (text.drop k) n = boundaryAt text (k + n) := by
  rw [boundaryAfter, boundaryAt, prevBefore_drop, List.get?_drop]

lemma wordMatchesAt_drop (text : List Char) (k : Nat) (w : List Char) :
    wordMatchesAt (prevAt text k) (text.drop k) w = occursAt text w k := by
  rw [wordMatchesAt, occursAt, boundaryAfter_drop, boundaryAfter_drop, Nat.add_zero]

/-- Characterization of the exact-replacer scan: starting from position
`k` (with everything before `k` already emitted and no occurrence
straddling `k`), position `k + p` of the output is an underscore exactly
when it lies inside a whole-word occurrence of a wordlist word, and the
original character otherwise.  The flag `ma` only bars a zero-width
match at the current position, which emits nothing, so the conclusion
does not depend on it.  Requires separated occurrences of the nonempty
words; empty wordlist entries are no-ops. -/
lemma scanExact_spec (words : List (List Char)) (text : List Char)
    (hsep : SeparatedOccs words text) :
    ∀ fuel k (ma : Bool),
      2 * (text.length - k) + (if ma = true then 0 else 1) ≤ fuel →
      (∀ w ∈ words, ∀ i, i < k → occursAt text w i = true → i + w.length ≤ k) →
      ∀ p, (scanExact words fuel (prevAt text k) (text.drop k) ma).get? p =
        if coveredB words text (k + p) = true then some '_' else text.get? (k + p) := by
  intro fuel
  induction fuel with
  | zero =>
    intro k ma hfuel hcons p
    have hk : text.length ≤ k := by
      cases ma
      · simp at hfuel
      · simp at hfuel
        omega
    rw [List.drop_eq_nil_of_le hk]
    have hcov : coveredB words text (k + p) = false := by
      cases hc : coveredB words text (k + p)
      · rfl
      · exact absurd (coveredB_lt_length hc) (by omega)
    have hlen : text.length ≤ k + p := by omega
    have hgn : text.get? (k + p) = none := List.get?_eq_none.mpr hlen
    simp [scanExact, hcov, hgn, hlen]
  | succ fuel ih =>
    intro k ma hfuel hcons p
    rcases hdrop : text.drop k with _ | ⟨c, cs⟩
    · have hk : text.length ≤ k := by
        have := congrArg List.length hdrop
        rw [List.length_drop] at this
        simp at this
        omega
      have hcov : coveredB words text (k + p) = false := by
        cases hc : coveredB words text (k + p)
        · rfl
        · exact absurd (coveredB_lt_length hc) (by omega)
      have hlen : text.length ≤ k + p := by omega
      have hgn : text.get? (k + p) = none := List.get?_eq_none.mpr hlen
      simp [scanExact, hcov, hgn, hlen]
    · have hk : k < text.length := by
        have := congrArg List.length hdrop
        rw [List.length_drop] at this
        simp only [List.length_cons] at this
        omega
      have hfuel2 : 2 * (text.length - k) ≤ fuel + 1 := by
        cases ma
        · simp at hfuel
          omega
        · simp at hfuel
          omega
      have hck : text.get? k = some c := by
        have h0 := List.get?_drop text k 0
        rw [hdrop] at h0
        simpa using h0.symm
      have hcs : text.drop (k + 1) = cs := by
        have := List.tail_drop text k
        rw [hdrop] at this
        simp at this
        exact this.symm
      have hprev1 : prevAt text (k + 1) = some c := by
        rw [prevAt, if_neg (by omega : ¬ k + 1 = 0)]
        simpa using hck
      rcases hfind : words.find?
          (fun w => wordMatchesAt (prevAt text k) (c :: cs) w && (!ma || !(w.length == 0)))
        with _ | w
      · -- no alternative (allowed under the flag) matches at position k
        have hnone : ∀ w ∈ words, w ≠ [] → occursAt text w k = false := by
          intro w hw hwne
          have h1 := List.find?_eq_none.mp hfind w hw
          cases hocc : occursAt text w k
          · rfl
          · exfalso
            apply h1
            rw [Bool.and_eq_true]
            refine ⟨?_, ?_⟩
            · have h2 := wordMatchesAt_drop text k w
              rw [hdrop] at h2
              rw [h2]
              exact hocc
            · have h3 : (w.length == 0) = false := by
                cases w
                · exact absurd rfl hwne
                · simp
              rw [h3]
              simp
        simp only [scanExact, hfind]
        cases p with
        | zero =>
          have hcov : coveredB words text k = false := by
            cases hc : coveredB words text k
            · rfl
            · obtain ⟨w, hw, i, hi, hocc, hlt⟩ := (coveredB_iff words text k).mp hc
              rcases Nat.lt_or_ge i k with hik | hik
              · have := hcons w hw i hik hocc
                omega
              · have hik2 : i = k := by omega
                subst hik2
                have hwne : w ≠ [] := by
                  intro he
                  subst he
                  simp at hlt
                rw [hnone w hw hwne] at hocc
                exact absurd hocc (by simp)
          simp only [Nat.add_zero]
          rw [List.get?_cons_zero, if_neg (by simp [hcov]), hck]
        | succ q =>
          have hcons1 : ∀ w ∈ words, ∀ i, i < k + 1 → occursAt text w i = true →
              i + w.length ≤ k + 1 := by
            intro w hw i hik hocc
            rcases Nat.lt_or_ge i k with h | h
            · have := hcons w hw i h hocc
              omega
            · have hik2 : i = k := by omega
              subst hik2
              by_cases hwne : w = []
              · subst hwne
                simp only [List.length_nil]
                omega
              · rw [hnone w hw hwne] at hocc
                exact absurd hocc (by simp)
          have hq := ih (k + 1) false (by simp; omega) hcons1 q
          rw [hprev1, hcs] at hq
          simp only [List.get?_cons_succ]
          rw [hq]
          have heq : k + 1 + q = k + (q + 1) := by omega
          rw [heq]
      · -- the first allowed matching alternative `w` is found at position k
        have hw_mem : w ∈ words := List.mem_of_find?_eq_some hfind
        have hpredb := List.find?_some hfind
        rw [Bool.and_eq_true] at hpredb
        have hpred : wordMatchesAt (prevAt text k) (c :: cs) w = true := hpredb.1
        have hocc : occursAt text w k = true := by
          have h2 := wordMatchesAt_drop text k w
          rw [hdrop] at h2
          rw [← h2]
          exact hpred
        simp only [scanExact, hfind]
        by_cases hw0 : w.length = 0
        · -- zero-width match: it emits nothing; retry at the same
          -- position with zero-width matches barred
          rw [if_pos hw0]
          have hma : ma = false := by
            have h2 := hpredb.2
            rw [hw0] at h2
            simpa using h2
          subst hma
          have hfuel3 : 2 * (text.length - k) + (if (true : Bool) = true then 0 else 1) ≤
              fuel := by
            simp at hfuel ⊢
            omega
          have hq := ih k true hfuel3 hcons p
          rw [hdrop] at hq
          exact hq
        · rw [if_neg hw0]
          have hwne : w ≠ [] := by
            intro he
            subst he
            simp at hw0
          have hwlen : 1 ≤ w.length := by omega
          have hrest2 : (c :: cs).drop w.length = text.drop (k + w.length) := by
            rw [← hdrop, List.drop_drop]
          have hprev2 : (c :: cs).get? (w.length - 1) = prevAt text (k + w.length) := by
            rw [← hdrop, List.get?_drop, prevAt, if_neg (by omega : ¬ k + w.length = 0)]
            congr 1
            omega
          rw [hrest2, hprev2]
          rcases Nat.lt_or_ge p w.length with hp | hp
          · -- inside the emitted run of underscores
            rw [List.get?_append (by simpa using hp)]
            have hrep : (List.replicate w.length '_').get? p = some '_' := by
              simp [List.get?_eq_getElem?, List.getElem?_eq_getElem, hp]
            rw [hrep, if_pos (coveredB_of hw_mem hocc (by omega) (by omega))]
          · -- after the match: apply the induction hypothesis at k + |w|
            rw [List.get?_append_right (by simpa using hp)]
            have hcons2 : ∀ w' ∈ words, ∀ i, i < k + w.length → occursAt text w' i = true →
                i + w'.length ≤ k + w.length := by
              intro w' hw' i hik hocc'
              rcases Nat.lt_or_ge i k with h | h
              · have := hcons w' hw' i h hocc'
                omega
              · by_cases hw'ne : w' = []
                · subst hw'ne
                  simp only [List.length_nil]
                  omega
                · have hilt : i < text.length := occursAt_lt_length hw'ne hocc'
                  have hw'len : 1 ≤ w'.length := by
                    cases w'
                    · exact absurd rfl hw'ne
                    · simp
                  rcases hsep w hw_mem hwne w' hw' hw'ne k hk i hilt hocc hocc' with
                    ⟨h1, h2⟩ | h1 | h1
                  all_goals omega
            have hq := ih (k + w.length) false (by simp; omega) hcons2 (p - w.length)
            simp only [List.length_replicate]
            rw [hq]
            have heq : k + w.length + (p - w.length) = k + p := by omega
            rw [heq]

/-- Claim C1 (amended): for text not beginning with `{` and a wordlist
whose nonempty words have pairwise non-overlapping whole-word
occurrences in the text (any two occurrences coincide exactly or are
disjoint), `redact_exact` maps the text to the string that carries an
underscore at exactly the positions lying inside a case-insensitive
whole-word (word-boundary delimited) occurrence of a wordlist word, and
the original character everywhere else: every whole-word occurrence is
replaced in full by underscores of its length, occurrences inside a
longer word are untouched, empty wordlist entries (blank wordlist-file
lines) are no-ops, and words are matched literally (regex metacharacters
carry no special meaning). -/
theorem makeReplacer_covered_spec (words : List (List Char)) (text : List Char)
    (hsep : SeparatedOccs words text)
    (hbrace : text.head? ≠ some '{') (p : Nat) :
    (makeReplacer words text).get? p =
      if coveredB words text p = true then some '_' else text.get? p := by
  have hsr : shouldReplace text = true := by
    rw [shouldReplace, beq_eq_false_iff_ne.mpr hbrace]
    rfl
  rw [makeReplacer, if_pos hsr]
  have h0 := scanExact_spec words text hsep (2 * text.length + 1) 0 false (by simp)
    (by intro w hw i hi; exact absurd hi (Nat.not_lt_zero i)) p
  rw [prevAt, if_pos rfl, List.drop_zero] at h0
  simpa using h0

/-- Witness for C1 at a concrete input: wordlist `["", "cat"]` (a blank
wordlist line followed by `cat`), text `"a cat!"`, position `3` (inside
the occurrence of `cat`); the empty entry is a no-op. -/
theorem makeReplacer_covered_spec_inst :
    (makeReplacer ["".toList, "cat".toList] "a cat!".toList).get? 3 =
      if coveredB ["".toList, "cat".toList] "a cat!".toList 3 = true then some '_'
      else "a cat!".toList.get? 3 :=
  makeReplacer_covered_spec ["".toList, "cat".toList] "a cat!".toList (by decide)
    (by decide) 3

/-- Counterexample to claim C1 as stated: with wordlist `["a", "a-b"]`
and text `"a-b"`, the word `"a-b"` has a whole-word occurrence at
position `0` (hyphen is not a word character, so boundaries surround
both `"a"` and `"a-b"`), yet position `1` of the output is not an
underscore: the engine replaced the overlapping shorter word `"a"`
first, yielding `"_-b"`, so the occurrence of `"a-b"` is not replaced
by a run of underscores of its length. -/
theorem makeReplacer_overlap_cex :
    "a-b".toList ∈ (["a".toList, "a-b".toList] : List (List Char)) ∧
    occursAt "a-b".toList "a-b".toList 0 = true ∧
    "a-b".toList.head? ≠ some '{' ∧
    (makeReplacer ["a".toList, "a-b".toList] "a-b".toList).get? 1 ≠ some '_' := by
  decide

lemma find?_dedupAux (p : List Char → Bool) :
    ∀ (l seen : List (List Char)), (∀ s ∈ seen, p s = false) →
      (dedupAux l seen).find? p = l.find? p := by
  intro l
  induction l with
  | nil => intro seen _; rfl
  | cons w ws ih =>
    intro seen hseen
    rw [dedupAux]
    by_cases hmem : w ∈ seen
    · rw [if_pos hmem, ih seen hseen,
        List.find?_cons_of_neg _ (by simp [hseen w hmem])]
    · rw [if_neg hmem]
      cases hpw : p w
      · rw [List.find?_cons_of_neg _ (by simp [hpw]),
          List.find?_cons_of_neg _ (by simp [hpw])]
        refine ih (w :: seen) ?_
        intro s hs
        rcases List.mem_cons.mp hs with rfl | hs2
        · exact hpw
        · exact hseen s hs2
      · rw [List.find?_cons_of_pos _ hpw, List.find?_cons_of_pos _ hpw]

lemma scanExact_congr (words1 words2 : List (List Char))
    (h : ∀ (prev : Option Char) (rest : List Char) (ma : Bool),
      words1.find? (fun w => wordMatchesAt prev rest w && (!ma || !(w.length == 0))) =
      words2.find? (fun w => wordMatchesAt prev rest w && (!ma || !(w.length == 0)))) :
    ∀ fuel prev rest ma,
      scanExact words1 fuel prev rest ma = scanExact words2 fuel prev rest ma := by
  intro fuel
  induction fuel with
  | zero => intro prev rest ma; rfl
  | succ fuel ih =>
    intro prev rest ma
    cases rest with
    | nil => rfl
    | cons c cs =>
      simp only [scanExact]
      rw [h prev (c :: cs) ma]
      cases words2.find?
          (fun w => wordMatchesAt prev (c :: cs) w && (!ma || !(w.length == 0))) with
      | none => dsimp only; rw [ih]
      | some w =>
        dsimp only
        by_cases hw : w.length = 0
        · rw [if_pos hw, if_pos hw, ih]
        · rw [if_neg hw, if_neg hw, ih]

/-- Claim C8 (amended): duplicate entries in the wordlist are irrelevant
to `redact_exact` — removing every entry equal to an earlier entry gives
the same replacer on every text.  (The order of distinct entries can
matter, see the counterexample.) -/
theorem makeReplacer_dedup_invariant (words : List (List Char)) (text : List Char) :
    makeReplacer (dedupWords words) text = makeReplacer words text := by
  rw [makeReplacer, makeReplacer]
  cases hsr : shouldReplace text
  · rfl
  · rw [if_pos rfl, if_pos rfl]
    exact scanExact_congr (dedupWords words) words
      (fun prev rest ma => find?_dedupAux
        (fun w => wordMatchesAt prev rest w && (!ma || !(w.length == 0))) words []
        (by intro s hs; exact absurd hs (List.not_mem_nil s)))
      (2 * text.length + 1) none text false

/-- Counterexample to claim C8 as stated: the wordlists `["a", "a-b"]`
and `["a-b", "a"]` are equal as sets, yet on the text `"a-b"` the
replacer yields `"_-b"` for the first and `"___"` for the second —
the output depends on the order of the words. -/
theorem makeReplacer_order_cex :
    (["a".toList, "a-b".toList] : List (List Char)).toFinset =
      (["a-b".toList, "a".toList] : List (List Char)).toFinset ∧
    makeReplacer ["a".toList, "a-b".toList] "a-b".toList = "_-b".toList ∧
    makeReplacer ["a-b".toList, "a".toList] "a-b".toList = "___".toList ∧
    "_-b".toList ≠ "___".toList := by
  decide

/-- Claim C5: text beginning with `{` is returned completely unchanged by
both the exact replacer and the random replacer (which also consumes no
random draw), regardless of the wordlist or keep ratio. -/
theorem replacers_skip_brace (words : List (List Char)) (keep : ℚ) (stream : ℕ → ℚ)
    (n : ℕ) (text : List Char) (h : text.head? = some '{') :
    makeReplacer words text = text ∧ makeRandomReplacer keep stream n text = (text, n) := by
  have hsr : shouldReplace text = false := by
    rw [shouldReplace, h]
    rfl
  constructor
  · rw [makeReplacer, hsr]
    rfl
  · rw [makeRandomReplacer, hsr]
    rfl

/-- Witness for C5 at the concrete text `"{i}cat"`. -/
theorem replacers_skip_brace_inst :
    makeReplacer ["cat".toList] "{i}cat".toList = "{i}cat".toList ∧
    makeRandomReplacer 0 (fun _ => 1) 0 "{i}cat".toList = ("{i}cat".toList, 0) :=
  replacers_skip_brace ["cat".toList] 0 (fun _ => 1) 0 "{i}cat".toList rfl

lemma scanExact_length (words : List (List Char)) :
    ∀ fuel prev rest ma, (scanExact words fuel prev rest ma).length = rest.length := by
  intro fuel
  induction fuel with
  | zero => intro prev rest ma; rfl
  | succ fuel ih =>
    intro prev rest ma
    cases rest with
    | nil => rfl
    | cons c cs =>
      simp only [scanExact]
      cases hfind : words.find?
          (fun w => wordMatchesAt prev (c :: cs) w && (!ma || !(w.length == 0))) with
      | none => dsimp only; simp [ih]
      | some w =>
        dsimp only
        have hle : w.length ≤ (c :: cs).length := by
          have hp := List.find?_some hfind
          rw [Bool.and_eq_true] at hp
          have hp1 := hp.1
          rw [wordMatchesAt, Bool.and_eq_true, Bool.and_eq_true] at hp1
          exact ciMatch_length_le _ _ hp1.1.2
        by_cases hw : w.length = 0
        · rw [if_pos hw]
          exact ih prev (c :: cs) true
        · rw [if_neg hw]
          simp only [List.length_append, List.length_replicate, ih, List.length_drop]
          omega

lemma length_takeWhile_le (p : Char → Bool) :
    ∀ s : List Char, (s.takeWhile p).length ≤ s.length := by
  intro s
  induction s with
  | nil => simp
  | cons a as ih =>
    cases hpa : p a
    · simp [List.takeWhile_cons, hpa]
    · simp [List.takeWhile_cons, hpa]
      omega

lemma validTokLen_le (s : List Char) :
    ∀ j k, validTokLen s j = some k → 1 ≤ k ∧ k ≤ j := by
  intro j
  induction j with
  | zero => intro k h; simp [validTokLen] at h
  | succ j ih =>
    intro k h
    rw [validTokLen] at h
    by_cases hb : isBoundary (s.get? j) (s.get? (j + 1)) = true
    · rw [if_pos hb] at h
      cases h
      omega
    · rw [if_neg hb] at h
      have := ih k h
      omega

lemma tryMatchTok_bounds (prev : Option Char) (rest : List Char) (g1 k : Nat)
    (h : tryMatchTok prev rest = some (g1, k)) :
    1 ≤ k ∧ g1 + k ≤ rest.length := by
  rcases rest with _ | ⟨c1, _ | ⟨d, rest2⟩⟩
  · have h2 : (if isBoundary prev (List.head? ([] : List Char)) then
        (validTokLen ([] : List Char) (tokRun [])).map (fun k => (0, k))
      else none) = some (g1, k) := h
    simp [tokRun, validTokLen, List.takeWhile] at h2
  · have h2 : (if isBoundary prev (List.head? [c1]) then
        (validTokLen [c1] (tokRun [c1])).map (fun k => (0, k))
      else none) = some (g1, k) := h
    by_cases hb : isBoundary prev (List.head? [c1]) = true
    · rw [if_pos hb] at h2
      cases hv : validTokLen [c1] (tokRun [c1]) with
      | none => rw [hv] at h2; simp at h2
      | some k2 =>
        rw [hv] at h2
        simp at h2
        obtain ⟨h1, h2⟩ := h2
        have hb2 := validTokLen_le [c1] (tokRun [c1]) k2 hv
        have hr := length_takeWhile_le isTokChar [c1]
        rw [tokRun] at hb2
        subst h1
        subst h2
        simp at hr ⊢
        omega
    · rw [if_neg hb] at h2
      simp at h2
  · have h2 : (if isBoundary prev (List.head? (c1 :: d :: rest2)) then
        if c1 == '\\' && isWordChar d then
          match validTokLen rest2 (tokRun rest2) with
          | some k => some (2, k)
          | none => none
        else (validTokLen (c1 :: d :: rest2) (tokRun (c1 :: d :: rest2))).map
          (fun k => (0, k))
      else none) = some (g1, k) := h
    by_cases hb : isBoundary prev (List.head? (c1 :: d :: rest2)) = true
    · rw [if_pos hb] at h2
      by_cases hcd : (c1 == '\\' && isWordChar d) = true
      · rw [if_pos hcd] at h2
        cases hv : validTokLen rest2 (tokRun rest2) with
        | none => rw [hv] at h2; simp at h2
        | some k2 =>
          rw [hv] at h2
          simp at h2
          obtain ⟨h1, h2⟩ := h2
          have hb2 := validTokLen_le rest2 (tokRun rest2) k2 hv
          have hr := length_takeWhile_le isTokChar rest2
          rw [tokRun] at hb2
          subst h1
          subst h2
          simp
          omega
      · rw [if_neg hcd] at h2
        cases hv : validTokLen (c1 :: d :: rest2) (tokRun (c1 :: d :: rest2)) with
        | none => rw [hv] at h2; simp at h2
        | some k2 =>
          rw [hv] at h2
          simp at h2
          obtain ⟨h1, h2⟩ := h2
          have hb2 := validTokLen_le (c1 :: d :: rest2) (tokRun (c1 :: d :: rest2)) k2 hv
          have hr := length_takeWhile_le isTokChar (c1 :: d :: rest2)
          rw [tokRun] at hb2
          subst h1
          subst h2
          simp at hr ⊢
          omega
    · rw [if_neg hb] at h2
      simp at h2

lemma scanRandom_length (keep : ℚ) (stream : ℕ → ℚ) :
    ∀ fuel n prev rest, ((scanRandom keep stream fuel n prev rest).1).length = rest.length := by
  intro fuel
  induction fuel with
  | zero => intro n prev rest; rfl
  | succ fuel ih =>
    intro n prev rest
    cases rest with
    | nil => rfl
    | cons c cs =>
      simp only [scanRandom]
      cases htm : tryMatchTok prev (c :: cs) with
      | none => dsimp only; simp [ih]
      | some g =>
        obtain ⟨g1, k⟩ := g
        dsimp only
        obtain ⟨hk1, hgk⟩ := tryMatchTok_bounds prev (c :: cs) g1 k htm
        simp only [List.length_append, ih, List.length_drop]
        rw [List.length_take_of_le (by simp at hgk ⊢; omega)]
        by_cases hc : keep < stream n
        · rw [if_pos hc]
          simp only [List.length_replicate, List.length_cons]
          simp at hgk
          omega
        · rw [if_neg hc]
          rw [List.length_take_of_le (by simp at hgk ⊢; omega)]
          simp at hgk ⊢
          omega

/-- Claim C10: both replacers preserve total string length on every
input: each replaced token contributes exactly as many underscores as it
had characters, and everything else is copied. -/
theorem replacers_length_invariant :
    (∀ (words : List (List Char)) (text : List Char),
      (makeReplacer words text).length = text.length) ∧
    (∀ (keep : ℚ) (stream : ℕ → ℚ) (n : ℕ) (text : List Char),
      ((makeRandomReplacer keep stream n text).1).length = text.length) := by
  constructor
  · intro words text
    rw [makeReplacer]
    cases hsr : shouldReplace text
    · rfl
    · rw [if_pos rfl]
      exact scanExact_length words (2 * text.length + 1) none text false
  · intro keep stream n text
    rw [makeRandomReplacer]
    cases hsr : shouldReplace text
    · rfl
    · rw [if_pos rfl]
      exact scanRandom_length keep stream (text.length + 1) n none text

lemma scanRandom_zero_eq_allDrop (stream : ℕ → ℚ) (hpos : ∀ m, 0 < stream m) :
    ∀ fuel n prev rest, (scanRandom 0 stream fuel n prev rest).1 = scanAllDrop fuel prev rest := by
  intro fuel
  induction fuel with
  | zero => intro n prev rest; rfl
  | succ fuel ih =>
    intro n prev rest
    cases rest with
    | nil => rfl
    | cons c cs =>
      simp only [scanRandom, scanAllDrop]
      cases htm : tryMatchTok prev (c :: cs) with
      | none => dsimp only; rw [ih]
      | some g =>
        obtain ⟨g1, k⟩ := g
        dsimp only
        rw [if_pos (hpos n), ih]

/-- Claim C4 (amended): with `keepRatio = 0` and every random draw
strictly positive, the random replacer replaces every token by
underscores of equal length and preserves any leading escape marker
verbatim, on any text not beginning with `{`.  (A draw of exactly `0.0`
— which `random.random()` can return — fails the strict `>` comparison
and keeps its token, so the amendment excludes it.) -/
theorem redactRandom_zero_keep (stream : ℕ → ℚ) (hpos : ∀ m, 0 < stream m)
    (text : List Char) (hbrace : text.head? ≠ some '{') :
    redactRandom 0 stream text = specAllDrop text := by
  have hsr : shouldReplace text = true := by
    rw [shouldReplace, beq_eq_false_iff_ne.mpr hbrace]
    rfl
  rw [redactRandom, makeRandomReplacer, specAllDrop, if_pos hsr, if_pos hsr]
  exact scanRandom_zero_eq_allDrop stream hpos (text.length + 1) 0 none text

/-- Witness for C4 with the all-ones draw stream on `"hi there"`. -/
theorem redactRandom_zero_keep_inst :
    redactRandom 0 (fun _ => 1) "hi there".toList = specAllDrop "hi there".toList ∧
    specAllDrop "hi there".toList = "__ _____".toList :=
  ⟨redactRandom_zero_keep (fun _ => 1) (fun _ => by norm_num) "hi there".toList
    (by decide), by decide⟩

/-- Counterexample to claim C4 as stated: with `keepRatio = 0` and a
draw sequence starting with exactly `0`, the token `"hi"` is kept, not
replaced — `random.random() > 0.0` is false at a draw of `0.0`. -/
theorem redactRandom_zero_draw_cex :
    redactRandom 0 (fun _ => 0) "hi".toList = "hi".toList ∧
    "hi".toList ≠ "__".toList := by
  constructor
  · decide
  · decide

lemma shouldReplace_of_brace {text : List Char} (h : text.head? = some '{') :
    shouldReplace text = false := by
  rw [shouldReplace, h]
  rfl

lemma makeReplacer_brace (words : List (List Char)) {text : List Char}
    (h : text.head? = some '{') : makeReplacer words text = text := by
  rw [makeReplacer, shouldReplace_of_brace h]
  rfl

lemma makeRandomReplacer_brace (keep : ℚ) (stream : ℕ → ℚ) (n : ℕ) {text : List Char}
    (h : text.head? = some '{') : makeRandomReplacer keep stream n text = (text, n) := by
  rw [makeRandomReplacer, shouldReplace_of_brace h]
  rfl

lemma escapeNewlines_of_not_mem {s : List Char} (h : '\n' ∉ s) : escapeNewlines s = s := by
  induction s with
  | nil => rfl
  | cons c cs ih =>
    rw [escapeNewlines, if_neg (by intro hc; exact h (hc ▸ List.mem_cons_self c cs)),
      ih (by intro hc; exact h (List.mem_cons_of_mem c hc))]

lemma dropRandomEvents_get (keep : ℚ) (stream : ℕ → ℚ) :
    ∀ (es : List SSAEvent) (n i : ℕ) (e : SSAEvent), es.get? i = some e →
      e.text.head? = some '{' → '\n' ∉ e.text →
      (dropRandomEvents keep stream n es).get? i = some e := by
  intro es
  induction es with
  | nil => intro n i e h; simp at h
  | cons f fs ih =>
    intro n i e hget hbrace hnl
    cases i with
    | zero =>
      rw [List.get?_cons_zero] at hget
      injection hget with hfe
      subst hfe
      rw [dropRandomEvents, List.get?_cons_zero, makeRandomReplacer_brace _ _ _ hbrace,
        setPlaintext, escapeNewlines_of_not_mem hnl]
    | succ j =>
      rw [List.get?_cons_succ] at hget
      rw [dropRandomEvents, List.get?_cons_succ]
      exact ih _ j e hget hbrace hnl

/-- Claim C2 (amended): only the leading-control-sequence heuristic
holds — an event whose raw text begins with `{` (and, as the exchange
format guarantees, contains no literal newline) is left entirely
unchanged, text and timestamps, by both `drop_words` and
`drop_random_words`.  Control sequences that appear later in an event's
text are not protected (see the counterexample). -/
theorem drop_preserves_brace_events (words : List (List Char)) (keep : ℚ)
    (stream : ℕ → ℚ) (subs : SSAFile) (i : ℕ) (e : SSAEvent)
    (hget : subs.events.get? i = some e)
    (hbrace : e.text.head? = some '{')
    (hnl : '\n' ∉ e.text) :
    (dropWords subs words).events.get? i = some e ∧
    (dropRandomWords subs keep stream).events.get? i = some e := by
  constructor
  · rw [dropWords, cloneSubs]
    simp only [List.get?_map, hget, Option.map_some']
    rw [makeReplacer_brace words hbrace, setPlaintext, escapeNewlines_of_not_mem hnl]
  · rw [dropRandomWords]
    exact dropRandomEvents_get keep stream subs.events 0 i e hget hbrace hnl

/-- Witness for C2 at a one-event track whose text is `"{tag}"`. -/
theorem drop_preserves_brace_events_inst :
    (dropWords ⟨[⟨0, 1, "{tag}".toList⟩]⟩ ["tag".toList]).events.get? 0 =
      some ⟨0, 1, "{tag}".toList⟩ ∧
    (dropRandomWords ⟨[⟨0, 1, "{tag}".toList⟩]⟩ 0 (fun _ => 1)).events.get? 0 =
      some ⟨0, 1, "{tag}".toList⟩ :=
  drop_preserves_brace_events ["tag".toList] 0 (fun _ => 1) ⟨[⟨0, 1, "{tag}".toList⟩]⟩ 0
    ⟨0, 1, "{tag}".toList⟩ rfl rfl (by decide)

/-- Counterexample to claim C2 as stated: the event text
`"Hi {\i1}x"` does not begin with `{`, so it is transformed; the
wordlist word `i1` matches inside the control sequence (backslash and
brace are not word characters, so `i1` is boundary-delimited there) and
the sequence `{\i1}` is rewritten to `{\__}` in the event's raw text. -/
theorem dropWords_modifies_control_cex :
    (dropWords ⟨[⟨0, 1, "Hi \x7b\\i1\x7dx".toList⟩]⟩ ["i1".toList]).events =
      [⟨0, 1, "Hi \x7b\\__\x7dx".toList⟩] ∧
    "Hi \x7b\\__\x7dx".toList ≠ "Hi \x7b\\i1\x7dx".toList := by
  constructor
  · decide
  · decide

/-- Claim C6: the sidecar path replaces the video's extension with
`.<language>.ssa` when a (nonempty) language is given and `.ssa`
otherwise; a cache hit returns the stored track with no extraction and
no filesystem change; a cache miss extracts for the requested language,
persists the track at the sidecar path and returns it. -/
theorem getSubs_cache_spec (extract : VideoPath → Option String → SSAFile)
    (fs : SidecarFS) (video : VideoPath) (language : Option String) :
    (∀ l, l ≠ "" → langSuffix (some l) = "." ++ l ++ ".ssa") ∧
    langSuffix none = ".ssa" ∧
    (∀ t, fs.lookup (video.stem ++ langSuffix language) = some t →
      getSubs extract fs video language = (t, fs, [])) ∧
    (fs.lookup (video.stem ++ langSuffix language) = none →
      getSubs extract fs video language =
        (extract video language,
         (video.stem ++ langSuffix language, extract video language) :: fs,
         [language])) := by
  refine ⟨?_, rfl, ?_, ?_⟩
  · intro l hl
    rw [langSuffix, if_neg hl]
  · intro t h
    rw [getSubs, h]
  · intro h
    rw [getSubs, h]

/-- Witness for C6: a miss on the empty filesystem extracts and persists. -/
theorem getSubs_cache_spec_inst :
    getSubs (fun _ _ => ⟨[]⟩) [] ⟨"movie"⟩ (some "eng") =
      (⟨[]⟩, [("movie" ++ langSuffix (some "eng"), ⟨[]⟩)], [some "eng"]) :=
  (getSubs_cache_spec (fun _ _ => ⟨[]⟩) [] ⟨"movie"⟩ (some "eng")).2.2.2 rfl

/-- Claim C7: redaction operates on an independent deep copy — after
`drop_words` or `drop_random_words`, the input track at address `i` is
unchanged (text and timestamps), and after the `drop` command the
persisted sidecar holds the un-redacted extracted track. -/
theorem redaction_frame (heap : List SSAFile) (i : ℕ) (words : List (List Char))
    (keep : ℚ) (stream : ℕ → ℚ) (extract : VideoPath → Option String → SSAFile)
    (fs : SidecarFS) (video : VideoPath)
    (hi : i < heap.length)
    (hmiss : fs.lookup (video.stem ++ langSuffix none) = none) :
    (dropWordsHeap heap i words).1.get? i = heap.get? i ∧
    (dropRandomWordsHeap heap i keep stream).1.get? i = heap.get? i ∧
    ((dropCmd extract fs video words).2).lookup (video.stem ++ langSuffix none) =
      some (extract video none) := by
  refine ⟨List.get?_append hi, List.get?_append hi, ?_⟩
  rw [dropCmd, getSubs, hmiss]
  simp [List.lookup]

/-- Witness for C7 on a one-track store and an empty filesystem. -/
theorem redaction_frame_inst :
    (dropWordsHeap [⟨[⟨0, 1, "hi".toList⟩]⟩] 0 ["hi".toList]).1.get? 0 =
      ([⟨[⟨0, 1, "hi".toList⟩]⟩] : List SSAFile).get? 0 ∧
    (dropRandomWordsHeap [⟨[⟨0, 1, "hi".toList⟩]⟩] 0 0 (fun _ => 1)).1.get? 0 =
      ([⟨[⟨0, 1, "hi".toList⟩]⟩] : List SSAFile).get? 0 ∧
    ((dropCmd (fun _ _ => ⟨[]⟩) [] ⟨"m"⟩ ["hi".toList]).2).lookup
        ("m" ++ langSuffix none) = some (⟨[]⟩ : SSAFile) :=
  redaction_frame [⟨[⟨0, 1, "hi".toList⟩]⟩] 0 ["hi".toList] 0 (fun _ => 1)
    (fun _ _ => ⟨[]⟩) [] ⟨"m"⟩ (by decide) rfl

lemma insertEv_perm (e : SSAEvent) (l : List SSAEvent) : (insertEv e l).Perm (e :: l) := by
  induction l with
  | nil => exact List.Perm.refl _
  | cons f fs ih =>
    rw [insertEv]
    by_cases hef : evLE e f = true
    · rw [if_pos hef]
    · rw [if_neg hef]
      exact (ih.cons f).trans (List.Perm.swap e f fs)

lemma sortEvents_perm (l : List SSAEvent) : (sortEvents l).Perm l := by
  induction l with
  | nil => exact List.Perm.refl _
  | cons e es ih =>
    rw [sortEvents]
    exact (insertEv_perm e (sortEvents es)).trans (ih.cons e)

lemma evLE_total (a b : SSAEvent) : evLE a b = true ∨ evLE b a = true := by
  rw [evLE, evLE, decide_eq_true_eq, decide_eq_true_eq]
  omega

lemma evLE_trans {a b c : SSAEvent} (h1 : evLE a b = true) (h2 : evLE b c = true) :
    evLE a c = true := by
  rw [evLE, decide_eq_true_eq] at h1 h2 ⊢
  omega

lemma insertEv_sorted (e : SSAEvent) (l : List SSAEvent)
    (h : l.Pairwise (fun a b => evLE a b = true)) :
    (insertEv e l).Pairwise (fun a b => evLE a b = true) := by
  induction l with
  | nil => simp [insertEv]
  | cons f fs ih =>
    rw [List.pairwise_cons] at h
    obtain ⟨hf, hfs⟩ := h
    rw [insertEv]
    by_cases hef : evLE e f = true
    · rw [if_pos hef]
      rw [List.pairwise_cons]
      refine ⟨?_, List.pairwise_cons.mpr ⟨hf, hfs⟩⟩
      intro x hx
      rcases List.mem_cons.mp hx with rfl | hx2
      · exact hef
      · exact evLE_trans hef (hf x hx2)
    · rw [if_neg hef]
      rw [List.pairwise_cons]
      refine ⟨?_, ih hfs⟩
      intro x hx
      rcases List.mem_cons.mp ((insertEv_perm e fs).mem_iff.mp hx) with rfl | h2
      · rcases evLE_total x f with h3 | h3
        · exact absurd h3 hef
        · exact h3
      · exact hf x h2

lemma sortEvents_sorted (l : List SSAEvent) :
    (sortEvents l).Pairwise (fun a b => evLE a b = true) := by
  induction l with
  | nil => simp [sortEvents]
  | cons e es ih => exact insertEv_sorted e (sortEvents es) ih

lemma sortEvents_start_le (l : List SSAEvent) :
    (sortEvents l).Pairwise (fun a b => a.start ≤ b.start) := by
  refine (sortEvents_sorted l).imp ?_
  intro a b h
  rw [evLE, decide_eq_true_eq] at h
  omega

/-- Claim C3: with no merge sidecar present, `merge_subs` returns a
track whose event multiset is exactly the union (concatenation up to
permutation) of the events of the `get_subs(video, l)` results for the
languages in order, sorted by non-decreasing start time. -/
theorem mergeSubs_fresh_spec (extract : VideoPath → Option String → SSAFile)
    (fs : SidecarFS) (video : VideoPath) (l : String) (ls : List String)
    (hmiss : fs.lookup (video.stem ++ mergeSuffix (l :: ls)) = none) :
    ∃ t fs2 log, mergeSubs extract fs video (l :: ls) = some (t, fs2, log) ∧
      t.events.Perm (((getSubsMany extract video fs (l :: ls)).1.map SSAFile.events).join) ∧
      t.events.Pairwise (fun a b => a.start ≤ b.start) := by
  rw [mergeSubs.eq_def, hmiss]
  exact ⟨_, _, _, rfl, sortEvents_perm _, sortEvents_start_le _⟩

/-- Witness for C3: two languages, events out of order across tracks. -/
theorem mergeSubs_fresh_spec_inst :
    (mergeSubs
      (fun _ lang => if lang = some "b" then ⟨[⟨5, 6, []⟩]⟩ else ⟨[⟨9, 10, []⟩]⟩)
      [] ⟨"m"⟩ ["a", "b"]).isSome = true := by
  obtain ⟨t, fs2, log, heq, hperm, hsort⟩ := mergeSubs_fresh_spec
    (fun _ lang => if lang = some "b" then ⟨[⟨5, 6, []⟩]⟩ else ⟨[⟨9, 10, []⟩]⟩)
    [] ⟨"m"⟩ "a" ["b"] rfl
  rw [heq]
  rfl

/-- Claim C9: once `merge_subs` has produced a result (persisting the
merge sidecar on a miss), invoking it again with the same arguments on
the resulting filesystem returns the same track and the same filesystem
and performs no extraction. -/
theorem mergeSubs_idempotent (extract : VideoPath → Option String → SSAFile)
    (fs fs1 : SidecarFS) (video : VideoPath) (languages : List String)
    (t1 : SSAFile) (log1 : List (Option String))
    (h : mergeSubs extract fs video languages = some (t1, fs1, log1)) :
    mergeSubs extract fs1 video languages = some (t1, fs1, []) := by
  rw [mergeSubs.eq_def] at h
  cases hl : fs.lookup (video.stem ++ mergeSuffix languages) with
  | some s =>
    rw [hl] at h
    simp only [Option.some.injEq, Prod.mk.injEq] at h
    obtain ⟨h1, h2, h3⟩ := h
    subst h1
    subst h2
    rw [mergeSubs.eq_def, hl]
  | none =>
    rw [hl] at h
    cases languages with
    | nil => simp at h
    | cons l ls =>
      simp only [Option.some.injEq, Prod.mk.injEq] at h
      obtain ⟨h1, h2, h3⟩ := h
      subst h1
      subst h2
      rw [mergeSubs.eq_def]
      have hsel : List.lookup (video.stem ++ mergeSuffix (l :: ls))
          ((video.stem ++ mergeSuffix (l :: ls),
            (⟨sortEvents (((getSubsMany extract video fs (l :: ls)).1.map
              SSAFile.events).join)⟩ : SSAFile)) ::
            (getSubsMany extract video fs (l :: ls)).2.1) =
          some ⟨sortEvents (((getSubsMany extract video fs (l :: ls)).1.map
            SSAFile.events).join)⟩ := by
        simp [List.lookup]
      rw [hsel]

/-- Witness for C9: re-invocation after a first merge on the empty
filesystem with one language. -/
theorem mergeSubs_idempotent_inst :
    mergeSubs (fun _ _ => ⟨[]⟩) [("m.a.ssa", ⟨[]⟩), ("m.a.ssa", ⟨[]⟩)] ⟨"m"⟩ ["a"] =
      some (⟨[]⟩, [("m.a.ssa", ⟨[]⟩), ("m.a.ssa", ⟨[]⟩)], []) :=
  mergeSubs_idempotent (fun _ _ => ⟨[]⟩) [] [("m.a.ssa", ⟨[]⟩), ("m.a.ssa", ⟨[]⟩)]
    ⟨"m"⟩ ["a"] ⟨[]⟩ [some "a"] (by decide)
